import Mathlib

/-!
Verification development for the chunked collaborative drawing layer of the
simple-vtt repository.

Modelling conventions (shallow embedding of the TypeScript source):
* JS numbers: all values flowing through the drawing subsystem are integer
  pixel/chunk coordinates, byte-sized colour channels, or version stamps, so
  they are modelled as `Int` (channels as `Nat`).  `Math.floor (x / c)` on
  integers is `Int.fdiv`.
* JS strings are modelled as `List Char` (`JsStr`).
* Pixel buffers (`Uint8ClampedArray` of RGBA bytes) are modelled as total
  functions `Int → Int → RGBA`; a `Uint8Array` bitmap as `Int → Int → Bool`.
  An out-of-range read of a JS typed array yields `undefined`, which compares
  unequal to every byte, so the colour-match helper of the flood-fill worker
  is false outside the grid; writes in the source are always guarded to be
  in range (proved below as frame theorems).
* The worker's scanline queue (`Int32Array` of capacity gridW*gridH*2) is
  modelled as a list; the loop is given fuel 2*W*H+1, which dominates the
  number of dequeues possible with that capacity (each enqueue is paired
  with a freshly filled in-grid pixel, at most two per fill, plus the seed).
-/

namespace SimpleVtt

/-- JS strings, modelled as lists of characters. -/
abbrev JsStr := List Char

/-- the CHUNK_SIZE constant of src/shared/types.ts. -/
def CHUNK_SIZE : Int := 512

/-- decimal digit character, `String(n)` building block. -/
def digitChar (n : Nat) : Char := Char.ofNat (48 + n)

/-- decimal printing of a natural number, as JS template interpolation
produces for a nonnegative integer; fuelled structural recursion, called
with fuel `n + 1` which always suffices. -/
def natToChars : Nat → Nat → List Char
  | 0, _ => []
  | fuel + 1, n =>
    if n < 10 then [digitChar n]
    else natToChars fuel (n / 10) ++ [digitChar (n % 10)]

/-- JS decimal rendering of an integer (template `${n}` in the source). -/
def intToChars (i : Int) : List Char :=
  if i < 0 then '-' :: natToChars (i.natAbs + 1) i.natAbs
  else natToChars (i.toNat + 1) i.toNat

/-- numeric value of a decimal digit character. -/
def digitVal (c : Char) : Nat := c.toNat - 48

/-- decimal parsing of a digit string, the core of JS `Number(s)` on the
canonical integer strings the drawing layer produces. -/
def parseNatChars (cs : List Char) : Nat :=
  cs.foldl (fun acc c => acc * 10 + digitVal c) 0

/-- JS `Number(s)` on the integer-formatted strings used for chunk keys
(`Number('')` is 0 in JS, matching the nil case). -/
def strToInt (cs : JsStr) : Int :=
  match cs with
  | [] => 0
  | c :: rest => if c = '-' then -(parseNatChars rest : Int) else (parseNatChars cs : Int)

/-- JS `s.split(',')`. -/
def splitComma : JsStr → List JsStr
  | [] => [[]]
  | c :: rest =>
    if c = ',' then [] :: splitComma rest
    else
      match splitComma rest with
      | [] => [[c]]
      | s :: ss => (c :: s) :: ss

/-- the string key `"cx,cy"` built by the template literals of the source. -/
def chunkKeyOf (cx cy : Int) : JsStr := intToChars cx ++ ',' :: intToChars cy

/-- worldToChunkKey of src/shared/types.ts. -/
def worldToChunkKey (x y : Int) : JsStr :=
  chunkKeyOf (x.fdiv CHUNK_SIZE) (y.fdiv CHUNK_SIZE)

/-- chunkKeyToWorld of src/shared/types.ts; a malformed key destructures to
`undefined`/NaN in JS, modelled by the (never exercised) default `(0, 0)`. -/
def chunkKeyToWorld (key : JsStr) : Int × Int :=
  match (splitComma key).map strToInt with
  | cx :: cy :: _ => (cx * CHUNK_SIZE, cy * CHUNK_SIZE)
  | _ => (0, 0)

/-- inclusive integer range `[lo, hi]`, the index set of a `for` loop
`for (let c = lo; c <= hi; c++)`. -/
def intRange (lo hi : Int) : List Int :=
  (List.range (hi - lo + 1).toNat).map (fun (i : Nat) => lo + (i : Int))

/-- getChunksInRect of src/shared/types.ts. -/
def getChunksInRect (x1 y1 x2 y2 : Int) : List JsStr :=
  let minX := (min x1 x2).fdiv CHUNK_SIZE
  let maxX := (max x1 x2).fdiv CHUNK_SIZE
  let minY := (min y1 y2).fdiv CHUNK_SIZE
  let maxY := (max y1 y2).fdiv CHUNK_SIZE
  (intRange minX maxX).flatMap (fun cx => (intRange minY maxY).map (fun cy => chunkKeyOf cx cy))

/-- an RGBA pixel, 8 bits per channel. -/
structure RGBA where
  r : Nat
  g : Nat
  b : Nat
  a : Nat
deriving DecidableEq, Repr

/-- hex digit test matching the character class `[a-f\d]` of the source's
case-insensitive regex. -/
def isHexDigit (c : Char) : Bool :=
  ('0' ≤ c && c ≤ '9') || ('a' ≤ c && c ≤ 'f') || ('A' ≤ c && c ≤ 'F')

/-- value of a hex digit character (either case). -/
def hexDigitVal (c : Char) : Nat :=
  if '0' ≤ c ∧ c ≤ '9' then c.toNat - 48
  else if 'a' ≤ c ∧ c ≤ 'f' then c.toNat - 87
  else c.toNat - 55

/-- `parseInt` of a two-hex-digit capture group. -/
def hexPairVal (c1 c2 : Char) : Nat := 16 * hexDigitVal c1 + hexDigitVal c2

/-- strip the optional leading `#` (`#?` in the source regex). -/
def hexStrip (cs : JsStr) : JsStr :=
  match cs with
  | [] => []
  | c :: rest => if c = '#' then rest else c :: rest

/-- body of the regex of DrawingLayer.hexToRgba after the optional `#`:
three two-hex-digit capture groups anchored at both ends, or no match. -/
def hexMatchGroups (l : JsStr) : Option (Nat × Nat × Nat) :=
  match l with
  | [c1, c2, c3, c4, c5, c6] =>
    if isHexDigit c1 && isHexDigit c2 && isHexDigit c3 &&
       isHexDigit c4 && isHexDigit c5 && isHexDigit c6 then
      some (hexPairVal c1 c2, hexPairVal c3 c4, hexPairVal c5 c6)
    else none
  | _ => none

/-- the regex `^#?([a-f\d]{2})([a-f\d]{2})([a-f\d]{2})$/i` of
DrawingLayer.hexToRgba. -/
def hexMatch (hex : JsStr) : Option (Nat × Nat × Nat) :=
  hexMatchGroups (hexStrip hex)

/-- hexToRgba of src/client/drawing.ts. -/
def hexToRgba (hex : JsStr) : RGBA :=
  match hexMatch hex with
  | some (r, g, b) => ⟨r, g, b, 255⟩
  | none => ⟨255, 0, 0, 255⟩

/-- validity predicate written from the spec's words for the claim about
hexToRgba: a 6-digit hex colour string, with or without a leading `#`. -/
def specSixDigitHex (s : JsStr) : Bool :=
  (s.length = 6 && s.all isHexDigit) ||
  (s.length = 7 && s.headD ' ' = '#' && s.tail.all isHexDigit)

/-! Flood-fill worker (src/client/floodFillWorkerPool.ts, handleFloodFill). -/

/-- unified working buffer of the 3x3 chunk window, one RGBA per coordinate. -/
abbrev Pix := Int → Int → RGBA

/-- the `filled` / dilation bitmaps (`Uint8Array`, one flag per pixel). -/
abbrev Bitmap := Int → Int → Bool

/-- a transparent black pixel; freshly allocated typed arrays are zeroed. -/
def zeroPixel : RGBA := ⟨0, 0, 0, 0⟩

/-- setPixelAt of the worker: write one RGBA pixel. -/
def setPixelAt (pix : Pix) (x y : Int) (c : RGBA) : Pix :=
  fun u v => if u = x ∧ v = y then c else pix u v

/-- mark one bit of a filled-bitmap. -/
def setBit (bm : Bitmap) (x y : Int) : Bitmap :=
  fun u v => if u = x ∧ v = y then true else bm u v

/-- colorsMatchAt of the worker.  An out-of-range typed-array read yields
`undefined`, which is unequal to every channel byte, so the match is false
outside the `[0,W) x [0,H)` grid. -/
def colorsMatchAt (W H : Int) (pix : Pix) (x y : Int) (t : RGBA) : Bool :=
  decide (0 ≤ x ∧ x < W ∧ 0 ≤ y ∧ y < H) && decide (pix x y = t)

/-- the leftward walk `while (x > 0 && colorsMatchAt(x-1, y, ...)) x--`;
fuel `x.toNat` is exact (each step decrements `x`, the guard needs `0 < x`). -/
def walkLeft (W H : Int) (pix : Pix) (y : Int) (t : RGBA) : Nat → Int → Int
  | 0, x => x
  | fuel + 1, x =>
    if 0 < x && colorsMatchAt W H pix (x - 1) y t then
      walkLeft W H pix y t fuel (x - 1)
    else x

/-- one rightward scanline walk of the worker's flood fill: fills matching
pixels, marks the bitmap, and debounces span seeds for the rows above and
below; returns the updated buffer, bitmap and the enqueued seeds in order.
Fuel `(W - x).toNat` is exact (each step increments `x`, the guard needs
`x < W`). -/
def fillRight (W H : Int) (t fc : RGBA) (y : Int) :
    Nat → Int → Bool → Bool → Pix → Bitmap → List (Int × Int) →
    Pix × Bitmap × List (Int × Int)
  | 0, _, _, _, pix, filled, adds => (pix, filled, adds)
  | fuel + 1, x, spanAbove, spanBelow, pix, filled, adds =>
    if x < W && colorsMatchAt W H pix x y t then
      if filled x y then
        fillRight W H t fc y fuel (x + 1) spanAbove spanBelow pix filled adds
      else
        let filled1 := setBit filled x y
        let pix1 := setPixelAt pix x y fc
        let aboveMatch := colorsMatchAt W H pix1 x (y - 1) t && !(filled1 x (y - 1))
        let spanAbove1 := if 0 < y then (if aboveMatch && !spanAbove then true else if !aboveMatch then false else spanAbove) else spanAbove
        let adds1 := if 0 < y && (aboveMatch && !spanAbove) then adds ++ [(x, y - 1)] else adds
        let belowMatch := colorsMatchAt W H pix1 x (y + 1) t && !(filled1 x (y + 1))
        let spanBelow1 := if y < H - 1 then (if belowMatch && !spanBelow then true else if !belowMatch then false else spanBelow) else spanBelow
        let adds2 := if y < H - 1 && (belowMatch && !spanBelow) then adds1 ++ [(x, y + 1)] else adds1
        fillRight W H t fc y fuel (x + 1) spanAbove1 spanBelow1 pix1 filled1 adds2
    else (pix, filled, adds)

/-- the outer scanline loop over the seed queue. -/
def fillLoop (W H : Int) (t fc : RGBA) :
    Nat → List (Int × Int) → Pix → Bitmap → Pix × Bitmap
  | _, [], pix, filled => (pix, filled)
  | 0, _ :: _, pix, filled => (pix, filled)
  | fuel + 1, (x, y) :: rest, pix, filled =>
    if y < 0 || H ≤ y then fillLoop W H t fc fuel rest pix filled
    else
      let xl := walkLeft W H pix y t x.toNat x
      let res := fillRight W H t fc y (W - xl).toNat xl false false pix filled []
      fillLoop W H t fc fuel (rest ++ res.2.2) res.1 res.2.1

/-- the 8-neighbour offsets in the worker's iteration order
(dy outer from -1 to 1, dx inner, skipping (0,0)). -/
def neighborOffsets : List (Int × Int) :=
  [(-1, -1), (0, -1), (1, -1), (-1, 0), (1, 0), (-1, 1), (0, 1), (1, 1)]

/-- row-major traversal order of the dilation pass (y outer, x inner). -/
def posList (W H : Int) : List (Int × Int) :=
  (intRange 0 (H - 1)).flatMap (fun y => (intRange 0 (W - 1)).map (fun x => (x, y)))

/-- write step for one neighbour `(x + d.1, y + d.2)` of a filled pixel
during a dilation pass: paint it and mark it in `next` if it is in range and
set neither in the pass's snapshot `cur` nor in `next` yet. -/
def expandStep (W H : Int) (fc : RGBA) (cur : Bitmap) (x y : Int)
    (st : Bitmap × Pix) (d : Int × Int) : Bitmap × Pix :=
  if decide (0 ≤ x + d.1 ∧ x + d.1 < W ∧ 0 ≤ y + d.2 ∧ y + d.2 < H) &&
     !(cur (x + d.1) (y + d.2)) && !(st.1 (x + d.1) (y + d.2)) then
    (setBit st.1 (x + d.1) (y + d.2), setPixelAt st.2 (x + d.1) (y + d.2) fc)
  else st

/-- expansion of a single filled pixel to its 8 neighbours during one
dilation pass; `cur` is the double-buffered snapshot read by the pass, the
state is the (next-bitmap, pixel-buffer) pair being written. -/
def expandAt (W H : Int) (fc : RGBA) (cur : Bitmap) (x y : Int)
    (st : Bitmap × Pix) : Bitmap × Pix :=
  neighborOffsets.foldl (expandStep W H fc cur x y) st

/-- per-position step of a dilation pass: only pixels set in the snapshot
`cur` expand. -/
def dilateStep (W H : Int) (fc : RGBA) (cur : Bitmap)
    (st : Bitmap × Pix) (p : Int × Int) : Bitmap × Pix :=
  if cur p.1 p.2 then expandAt W H fc cur p.1 p.2 st else st

/-- one morphological dilation pass: `next` starts as a copy of `current`
and every pixel set in `current` expands to its 8 neighbours. -/
def dilatePass (W H : Int) (fc : RGBA) (cur : Bitmap) (pix : Pix) : Bitmap × Pix :=
  (posList W H).foldl (dilateStep W H fc cur) (cur, pix)

/-- the `for (let expansion = 0; expansion < 3; expansion++)` loop with
buffer swapping after each pass. -/
def dilateLoop (W H : Int) (fc : RGBA) : Nat → Bitmap → Pix → Bitmap × Pix
  | 0, cur, pix => (cur, pix)
  | n + 1, cur, pix =>
    let st := dilatePass W H fc cur pix
    dilateLoop W H fc n st.1 st.2

/-- one chunk of the worker message: parsed integer key and pixel buffer.
The string keys of the wire format are related to integer pairs by the
bijective codec `chunkKeyOf` / `splitComma` + `strToInt` proved below. -/
abbrev ChunkEntry := (Int × Int) × Pix

/-- copy one chunk's rows into the unified buffer (the row loop writes the
rectangle `[ox, ox+s) x [oy, oy+s)`). -/
def stitchOne (s fx fy : Int) (acc : Pix) (e : ChunkEntry) : Pix :=
  fun u v =>
    if (e.1.1 - fx) * s ≤ u ∧ u < (e.1.1 - fx) * s + s ∧
       (e.1.2 - fy) * s ≤ v ∧ v < (e.1.2 - fy) * s + s then
      e.2 (u - (e.1.1 - fx) * s) (v - (e.1.2 - fy) * s)
    else acc u v

/-- build the unified 3x3-window buffer from the transferred chunks; the
buffer starts zeroed like a fresh `Uint8ClampedArray`. -/
def stitch (s : Int) (chunks : List ChunkEntry) (fx fy : Int) : Pix :=
  chunks.foldl (stitchOne s fx fy) (fun _ _ => zeroPixel)

/-- read one chunk's rows back out of the unified buffer (the copy-back row
loop overwrites every byte of the chunk-local buffer). -/
def extractChunk (s : Int) (pix : Pix) (fx fy : Int) (k : Int × Int) : Pix :=
  fun u v => pix (u + (k.1 - fx) * s) (v + (k.2 - fy) * s)

/-- the scanline fill followed by the three dilation passes, on an already
stitched buffer with an in-range seed; returns the final unified buffer and
filled bitmap. -/
def floodFillCore (W H : Int) (fc : RGBA) (localX localY : Int) (pixels : Pix) :
    Pix × Bitmap :=
  let t := pixels localX localY
  let r1 := fillLoop W H t fc (2 * (W * H) + 1).toNat [(localX, localY)] pixels
    (fun _ _ => false)
  let r2 := dilateLoop W H fc 3 r1.2 r1.1
  (r2.2, r2.1)

/-- handleFloodFill of the worker: stitch, boundary and same-colour guards,
scanline fill, dilation, copy-back.  Every chunk of the input array is
copied back and returned. -/
def handleFloodFill (s W H : Int) (chunks : List ChunkEntry)
    (localX localY : Int) (fillColor : RGBA) : List ChunkEntry :=
  match chunks with
  | [] => []
  | first :: _ =>
    let fx := first.1.1
    let fy := first.1.2
    let pixels := stitch s chunks fx fy
    if localX < 0 || W ≤ localX || localY < 0 || H ≤ localY then []
    else if pixels localX localY = fillColor then []
    else
      let r := floodFillCore W H fillColor localX localY pixels
      chunks.map (fun e => (e.1, extractChunk s r.1 fx fy e.1))

/-! Concrete flood-fill instance used to examine the copy-back stage: a
3x3 window of 8-pixel chunks whose centre chunk holds a single seed-coloured
pixel at its centre, every other pixel being a distinct third colour. -/

/-- the colour under the seed of the example fill. -/
def exTarget : RGBA := ⟨1, 2, 3, 4⟩

/-- the background colour of the example fill window. -/
def exOther : RGBA := ⟨9, 9, 9, 255⟩

/-- the fill colour of the example fill. -/
def exFill : RGBA := ⟨255, 0, 0, 255⟩

/-- a chunk whose pixels are all the background colour. -/
def exConst : Pix := fun _ _ => exOther

/-- the centre chunk: seed colour at local (4,4), background elsewhere. -/
def exCenterChunk : Pix := fun u v => if u = 4 ∧ v = 4 then exTarget else exOther

/-- the 9 transferred chunks of the example fill, in the client's iteration
order. -/
def exChunks : List ChunkEntry :=
  [((0, 0), exConst), ((0, 1), exConst), ((0, 2), exConst),
   ((1, 0), exConst), ((1, 1), exCenterChunk), ((1, 2), exConst),
   ((2, 0), exConst), ((2, 1), exConst), ((2, 2), exConst)]

/-- the example fill: chunk size 8, 24x24 unified grid, seed at the global
centre (12,12), which is local (4,4) of the centre chunk. -/
def exResult : List ChunkEntry := handleFloodFill 8 24 24 exChunks 12 12 exFill

/-! Client chunk store and DrawingLayer.floodFill (src/client/drawing.ts).
Chunk canvases are modelled by their pixel content. -/

/-- the client's sparse chunk map, keyed by integer chunk coordinates. -/
abbrev Store := (Int × Int) → Option Pix

/-- a freshly created chunk canvas: fully transparent. -/
def blankChunk : Pix := fun _ _ => zeroPixel

/-- getOrCreateChunk of DrawingLayer: returns the chunk's pixels and the
possibly-extended map. -/
def getOrCreateChunk (store : Store) (k : Int × Int) : Pix × Store :=
  match store k with
  | some c => (c, store)
  | none => (blankChunk, fun k2 => if k2 = k then some blankChunk else store k2)

/-- the 9 keys of the 3x3 neighbourhood in the iteration order of
DrawingLayer.floodFill (dx outer from -1 to 1, dy inner). -/
def neighborhoodKeys (cx cy : Int) : List (Int × Int) :=
  (intRange (-1) 1).flatMap (fun dx => (intRange (-1) 1).map (fun dy => (cx + dx, cy + dy)))

/-- accumulate one chunk entry while assembling the 3x3 neighbourhood. -/
def gatherStep (acc : List ChunkEntry × Store) (k : Int × Int) :
    List ChunkEntry × Store :=
  let r := getOrCreateChunk acc.2 k
  (acc.1 ++ [(k, r.1)], r.2)

/-- assemble the 9 chunk entries, creating missing chunks. -/
def gatherChunks (store : Store) (cx cy : Int) : List ChunkEntry × Store :=
  (neighborhoodKeys cx cy).foldl gatherStep ([], store)

/-- putImageData of one returned chunk, guarded by the `chunks.get(key)`
lookup of the apply loop. -/
def applyOne (chunks : List ChunkEntry) (st : Store) (e : ChunkEntry) : Store :=
  if (chunks.lookup e.1).isSome then
    fun k => if k = e.1 then some e.2 else st k
  else st

/-- putImageData of the returned chunks back into the store. -/
def applyModifiedChunks (chunks : List ChunkEntry) (store : Store)
    (modified : List ChunkEntry) : Store :=
  modified.foldl (applyOne chunks) store

/-- DrawingLayer.floodFill: parse the seed's chunk key, gather the 3x3
neighbourhood, run the worker computation, apply every returned chunk. -/
def clientFloodFill (store : Store) (worldX worldY : Int) (colorHex : JsStr) : Store :=
  let fillColor := hexToRgba colorHex
  match (splitComma (worldToChunkKey worldX worldY)).map strToInt with
  | startChunkX :: startChunkY :: _ =>
    let g := gatherChunks store startChunkX startChunkY
    let localX := worldX - (startChunkX - 1) * CHUNK_SIZE
    let localY := worldY - (startChunkY - 1) * CHUNK_SIZE
    let modified := handleFloodFill CHUNK_SIZE (3 * CHUNK_SIZE) (3 * CHUNK_SIZE)
      g.1 localX localY fillColor
    applyModifiedChunks g.1 g.2 modified
  | _ => store

/-- getChunkData of DrawingLayer: a read-only query of the chunk map,
returning the chunk's content (PNG encoding by the canvas is a browser
primitive, abstracted as the pixel content) or `none` for an absent key.
The returned map is the method's (unchanged) state. -/
def getChunkData (chunks : Store) (k : Int × Int) : Option Pix × Store :=
  match chunks k with
  | none => (none, chunks)
  | some c => (some c, chunks)

/-! Synchronization: the client draw:chunk handler (src/client/index.ts) and
DrawingLayer.loadChunk.  A chunk canvas content is identified by the encoded
bytes painted into it (decode is a browser primitive, lossless per spec). -/

/-- a draw:chunk wire message as received by a peer. -/
structure DrawChunkMsg where
  sceneId : JsStr
  chunkKey : JsStr
  data : JsStr
  version : Int

/-- loadChunk of DrawingLayer: unconditionally clear and redraw the chunk
with the received image. -/
def loadChunk (chunks : JsStr → Option JsStr) (key data : JsStr) :
    JsStr → Option JsStr :=
  fun k => if k = key then some data else chunks k

/-- the `case 'draw:chunk'` branch of the client message handler: apply the
update if it targets the active scene; the version field is not consulted. -/
def handleDrawChunkMsg (activeSceneId : JsStr) (chunks : JsStr → Option JsStr)
    (m : DrawChunkMsg) : JsStr → Option JsStr :=
  if m.sceneId = activeSceneId then loadChunk chunks m.chunkKey m.data else chunks

/-! Server routing (src/server/websocket.ts). -/

/-- a connected socket as the server sees it: an identity and a readyState. -/
structure WsClient where
  id : Nat
  readyState : Nat
deriving DecidableEq, Repr

/-- WebSocket.OPEN. -/
def WS_OPEN : Nat := 1

/-- broadcast: send to every client whose readyState is OPEN. -/
def broadcast (clients : List WsClient) : List Nat :=
  ((clients.filter (fun c => c.readyState == WS_OPEN)).map (fun c => c.id))

/-- broadcastExcept: send to every OPEN client other than the excluded one
(socket identity modelled by the id). -/
def broadcastExcept (clients : List WsClient) (exclude : Nat) : List Nat :=
  ((clients.filter (fun c => !(c.id == exclude) && c.readyState == WS_OPEN)).map (fun c => c.id))

/-- the drawing messages routed by handleMessage. -/
inductive ServerDrawMsg where
  | stroke (sceneId : JsStr) (payload : JsStr)
  | chunk (sceneId : JsStr) (chunkKey : JsStr) (data : JsStr) (version : Int)

/-- recipient lists of the `draw:stroke` and `draw:chunk` cases of the
server's handleMessage: stroke previews go to all other clients, committed
chunks to all clients. -/
def handleDrawMessage (clients : List WsClient) (sender : Nat) :
    ServerDrawMsg → List Nat
  | .stroke _ _ => broadcastExcept clients sender
  | .chunk _ _ _ _ => broadcast clients

/-! Specification-side predicates used to state the theorems. -/

/-- membership of a coordinate in the unified grid `[0,W) x [0,H)`. -/
abbrev inGridP (W H x y : Int) : Prop := 0 ≤ x ∧ x < W ∧ 0 ≤ y ∧ y < H

/-- two unified buffers agreeing on every in-grid pixel. -/
def gridEq (W H : Int) (p1 p2 : Pix) : Prop :=
  ∀ x y, 0 ≤ x → x < W → 0 ≤ y → y < H → p1 x y = p2 x y

/-! Lemmas about the decimal codec of chunk keys. -/

theorem digitVal_digitChar : ∀ n, n < 10 → digitVal (digitChar n) = n := by decide

theorem digitChar_ne_comma : ∀ n, n < 10 → digitChar n ≠ ',' := by decide

theorem digitChar_ne_minus : ∀ n, n < 10 → digitChar n ≠ '-' := by decide

theorem natToChars_mem : ∀ fuel n c, c ∈ natToChars fuel n → ∃ m, m < 10 ∧ c = digitChar m := by
  intro fuel
  induction fuel with
  | zero => intro n c h; simp [natToChars] at h
  | succ fuel ih =>
    intro n c h
    by_cases hn : n < 10
    · simp [natToChars, hn] at h
      exact ⟨n, hn, h⟩
    · simp [natToChars, hn] at h
      rcases h with h | h
      · exact ih _ _ h
      · exact ⟨n % 10, Nat.mod_lt _ (by omega), h⟩

theorem parseNatChars_append (ds : List Char) (c : Char) :
    parseNatChars (ds ++ [c]) = 10 * parseNatChars ds + digitVal c := by
  simp [parseNatChars, List.foldl_append, Nat.mul_comm]

theorem natToChars_parse : ∀ fuel n, n < fuel →
    parseNatChars (natToChars fuel n) = n := by
  intro fuel
  induction fuel with
  | zero => intro n h; omega
  | succ fuel ih =>
    intro n h
    by_cases hn : n < 10
    · simp [natToChars, hn, parseNatChars, digitVal_digitChar n hn]
    · have hdiv : n / 10 < n := Nat.div_lt_self (by omega) (by omega)
      simp only [natToChars, hn, if_false]
      rw [parseNatChars_append, ih _ (by omega), digitVal_digitChar _ (Nat.mod_lt _ (by omega))]
      omega

theorem natToChars_ne_nil : ∀ fuel n, n < fuel → natToChars fuel n ≠ [] := by
  intro fuel n h
  cases fuel with
  | zero => omega
  | succ fuel =>
    by_cases hn : n < 10 <;> simp [natToChars, hn]

theorem strToInt_intToChars (i : Int) : strToInt (intToChars i) = i := by
  by_cases hi : i < 0
  · simp only [intToChars, hi, if_true, strToInt, if_pos rfl]
    rw [natToChars_parse _ _ (Nat.lt_succ_self _)]
    omega
  · simp only [intToChars, hi, if_false]
    rcases hne : natToChars (i.toNat + 1) i.toNat with _ | ⟨c, rest⟩
    · exact absurd hne (natToChars_ne_nil _ _ (Nat.lt_succ_self _))
    · have hc : c ∈ natToChars (i.toNat + 1) i.toNat := by rw [hne]; exact List.mem_cons_self _ _
      obtain ⟨m, hm, hcm⟩ := natToChars_mem _ _ _ hc
      have hne2 : c ≠ '-' := by subst hcm; exact digitChar_ne_minus m hm
      rw [strToInt, if_neg hne2, ← hne, natToChars_parse _ _ (Nat.lt_succ_self _)]
      omega

theorem intToChars_no_comma (i : Int) : ∀ c ∈ intToChars i, c ≠ ',' := by
  intro c hc
  by_cases hi : i < 0
  · rw [intToChars, if_pos hi] at hc
    rcases List.mem_cons.1 hc with h1 | h1
    · subst h1; decide
    · obtain ⟨m, hm, hcm⟩ := natToChars_mem _ _ _ h1
      subst hcm; exact digitChar_ne_comma m hm
  · rw [intToChars, if_neg hi] at hc
    obtain ⟨m, hm, hcm⟩ := natToChars_mem _ _ _ hc
    subst hcm; exact digitChar_ne_comma m hm

theorem splitComma_of_no_comma : ∀ cs : JsStr, (∀ c ∈ cs, c ≠ ',') →
    splitComma cs = [cs] := by
  intro cs
  induction cs with
  | nil => intro _; rfl
  | cons c rest ih =>
    intro h
    have hc : c ≠ ',' := h c (List.mem_cons_self _ _)
    have := ih (fun d hd => h d (List.mem_cons_of_mem _ hd))
    simp [splitComma, hc, this]

theorem splitComma_append : ∀ a b : JsStr, (∀ c ∈ a, c ≠ ',') →
    splitComma (a ++ ',' :: b) = a :: splitComma b := by
  intro a
  induction a with
  | nil => intro b _; simp [splitComma]
  | cons c a' ih =>
    intro b h
    have hc : c ≠ ',' := h c (List.mem_cons_self _ _)
    have := ih b (fun d hd => h d (List.mem_cons_of_mem _ hd))
    simp [splitComma, hc, this]

theorem splitComma_chunkKeyOf (cx cy : Int) :
    splitComma (chunkKeyOf cx cy) = [intToChars cx, intToChars cy] := by
  rw [chunkKeyOf, splitComma_append _ _ (intToChars_no_comma cx),
      splitComma_of_no_comma _ (intToChars_no_comma cy)]

theorem chunkKeyToWorld_chunkKeyOf (cx cy : Int) :
    chunkKeyToWorld (chunkKeyOf cx cy) = (cx * CHUNK_SIZE, cy * CHUNK_SIZE) := by
  rw [chunkKeyToWorld, splitComma_chunkKeyOf]
  simp [strToInt_intToChars]

theorem mul_CHUNK_SIZE_fdiv (c : Int) : (c * CHUNK_SIZE).fdiv CHUNK_SIZE = c :=
  Int.mul_fdiv_cancel c (by norm_num [CHUNK_SIZE])

/-- C6: chunk addressing round-trips — for every integer chunk coordinate
pair, `chunkKeyToWorld` of its key followed by `worldToChunkKey` returns the
original key; for every world point, `worldToChunkKey` is floor division by
CHUNK_SIZE on each axis, and the chunk origin is chunk coordinate times
CHUNK_SIZE. -/
theorem chunk_addressing_roundtrip : ∀ cx cy x y : Int,
    (worldToChunkKey (chunkKeyToWorld (chunkKeyOf cx cy)).1
        (chunkKeyToWorld (chunkKeyOf cx cy)).2 = chunkKeyOf cx cy)
    ∧ worldToChunkKey x y = chunkKeyOf (x.fdiv CHUNK_SIZE) (y.fdiv CHUNK_SIZE)
    ∧ chunkKeyToWorld (worldToChunkKey x y)
        = (x.fdiv CHUNK_SIZE * CHUNK_SIZE, y.fdiv CHUNK_SIZE * CHUNK_SIZE) := by
  intro cx cy x y
  refine ⟨?_, rfl, ?_⟩
  · rw [chunkKeyToWorld_chunkKeyOf]
    simp [worldToChunkKey, mul_CHUNK_SIZE_fdiv]
  · rw [worldToChunkKey, chunkKeyToWorld_chunkKeyOf]

/-! Lemmas about integer ranges and getChunksInRect. -/

theorem mem_intRange (lo hi a : Int) : a ∈ intRange lo hi ↔ lo ≤ a ∧ a ≤ hi := by
  simp only [intRange, List.mem_map, List.mem_range]
  constructor
  · rintro ⟨i, hilt, rfl⟩; omega
  · intro h; exact ⟨(a - lo).toNat, by omega, by omega⟩

theorem mem_intRange_self (lo hi : Int) (h : lo ≤ hi) : lo ∈ intRange lo hi :=
  (mem_intRange lo hi lo).2 ⟨le_refl _, h⟩

theorem fdiv_mono_CHUNK_SIZE {a b : Int} (h : a ≤ b) :
    a.fdiv CHUNK_SIZE ≤ b.fdiv CHUNK_SIZE := by
  rw [Int.fdiv_eq_ediv _ (by norm_num [CHUNK_SIZE]),
      Int.fdiv_eq_ediv _ (by norm_num [CHUNK_SIZE])]
  exact Int.ediv_le_ediv (by norm_num [CHUNK_SIZE]) h

/-- C9: getChunksInRect is invariant under swapping its two corner points,
and its result always contains the key of the minimum corner's chunk (in
particular it is never empty). -/
theorem getChunksInRect_swap_and_member : ∀ x1 y1 x2 y2 : Int,
    getChunksInRect x1 y1 x2 y2 = getChunksInRect x2 y2 x1 y1
    ∧ chunkKeyOf ((min x1 x2).fdiv CHUNK_SIZE) ((min y1 y2).fdiv CHUNK_SIZE)
        ∈ getChunksInRect x1 y1 x2 y2
    ∧ getChunksInRect x1 y1 x2 y2 ≠ [] := by
  intro x1 y1 x2 y2
  have hx : (min x1 x2).fdiv CHUNK_SIZE ≤ (max x1 x2).fdiv CHUNK_SIZE :=
    fdiv_mono_CHUNK_SIZE (min_le_max)
  have hy : (min y1 y2).fdiv CHUNK_SIZE ≤ (max y1 y2).fdiv CHUNK_SIZE :=
    fdiv_mono_CHUNK_SIZE (min_le_max)
  have hmem : chunkKeyOf ((min x1 x2).fdiv CHUNK_SIZE) ((min y1 y2).fdiv CHUNK_SIZE)
      ∈ getChunksInRect x1 y1 x2 y2 := by
    rw [getChunksInRect]
    refine List.mem_flatMap.2 ⟨(min x1 x2).fdiv CHUNK_SIZE, mem_intRange_self _ _ hx, ?_⟩
    exact List.mem_map.2 ⟨(min y1 y2).fdiv CHUNK_SIZE, mem_intRange_self _ _ hy, rfl⟩
  refine ⟨?_, hmem, List.ne_nil_of_mem hmem⟩
  rw [getChunksInRect, getChunksInRect, min_comm x1 x2, max_comm x1 x2,
      min_comm y1 y2, max_comm y1 y2]

/-! Frame and write lemmas for the flood-fill worker: every pixel written
by the scanline fill or by the dilation is an in-grid pixel written with the
fill colour. -/

theorem colorsMatchAt_true {W H : Int} {pix : Pix} {x y : Int} {t : RGBA}
    (h : colorsMatchAt W H pix x y t = true) : inGridP W H x y ∧ pix x y = t := by
  rw [colorsMatchAt, Bool.and_eq_true, decide_eq_true_eq, decide_eq_true_eq] at h
  exact ⟨h.1, h.2⟩

theorem setPixelAt_spec (pix : Pix) (x y : Int) (c : RGBA) (u v : Int) :
    setPixelAt pix x y c u v = pix u v ∨
    (setPixelAt pix x y c u v = c ∧ u = x ∧ v = y) := by
  rw [setPixelAt]
  by_cases h : u = x ∧ v = y
  · exact Or.inr ⟨if_pos h, h.1, h.2⟩
  · exact Or.inl (if_neg h)

theorem fillRight_pix_spec (W H : Int) (t fc : RGBA) (y : Int) :
    ∀ fuel x sa sb (pix : Pix) (filled : Bitmap) adds (u v : Int),
      (fillRight W H t fc y fuel x sa sb pix filled adds).1 u v = pix u v ∨
      ((fillRight W H t fc y fuel x sa sb pix filled adds).1 u v = fc ∧
        inGridP W H u v) := by
  intro fuel
  induction fuel with
  | zero => intro x sa sb pix filled adds u v; exact Or.inl rfl
  | succ fuel ih =>
    intro x sa sb pix filled adds u v
    by_cases hg : (decide (x < W) && colorsMatchAt W H pix x y t) = true
    · by_cases hf : filled x y = true
      · simp only [fillRight, hg, if_true, hf]
        exact ih _ _ _ _ _ _ u v
      · simp only [fillRight, hg, if_true, hf, Bool.false_eq_true, if_false]
        rcases ih (x + 1) _ _ (setPixelAt pix x y fc) (setBit filled x y) _ u v with h | h
        · rw [h]
          rcases setPixelAt_spec pix x y fc u v with h2 | h2
          · exact Or.inl h2
          · refine Or.inr ⟨h2.1, ?_⟩
            obtain ⟨hgrid, _⟩ := colorsMatchAt_true (Bool.and_elim_right hg)
            rw [h2.2.1, h2.2.2]
            exact hgrid
        · exact Or.inr h
    · simp only [fillRight, hg, Bool.false_eq_true, if_false]
      exact Or.inl trivial

theorem fillLoop_pix_spec (W H : Int) (t fc : RGBA) :
    ∀ fuel queue (pix : Pix) (filled : Bitmap) (u v : Int),
      (fillLoop W H t fc fuel queue pix filled).1 u v = pix u v ∨
      ((fillLoop W H t fc fuel queue pix filled).1 u v = fc ∧ inGridP W H u v) := by
  intro fuel
  induction fuel with
  | zero =>
    intro queue pix filled u v
    rcases queue with _ | ⟨⟨x, y⟩, rest⟩
    · exact Or.inl rfl
    · exact Or.inl rfl
  | succ fuel ih =>
    intro queue pix filled u v
    rcases queue with _ | ⟨⟨x, y⟩, rest⟩
    · exact Or.inl rfl
    · by_cases hy : (decide (y < 0) || decide (H ≤ y)) = true
      · simp only [fillLoop, hy, if_true]
        exact ih _ _ _ u v
      · simp only [fillLoop, hy, Bool.false_eq_true, if_false]
        rcases ih _ _ _ u v with h | h
        · rw [h]
          exact fillRight_pix_spec W H t fc y _ _ _ _ pix filled [] u v
        · exact Or.inr h

theorem expandAt_pix_spec (W H : Int) (fc : RGBA) (cur : Bitmap) (x y : Int) :
    ∀ (ds : List (Int × Int)) (st : Bitmap × Pix) (u v : Int),
      (ds.foldl (expandStep W H fc cur x y) st).2 u v = st.2 u v ∨
      ((ds.foldl (expandStep W H fc cur x y) st).2 u v = fc ∧ inGridP W H u v) := by
  intro ds
  induction ds with
  | nil => intro st u v; exact Or.inl rfl
  | cons d ds ih =>
    intro st u v
    rw [List.foldl_cons]
    rcases ih (expandStep W H fc cur x y st d) u v with h | h
    · rw [h, expandStep]
      by_cases hc : (decide (0 ≤ x + d.1 ∧ x + d.1 < W ∧ 0 ≤ y + d.2 ∧ y + d.2 < H) &&
          !(cur (x + d.1) (y + d.2)) && !(st.1 (x + d.1) (y + d.2))) = true
      · simp only [hc, if_true]
        rcases setPixelAt_spec st.2 (x + d.1) (y + d.2) fc u v with h2 | h2
        · exact Or.inl h2
        · refine Or.inr ⟨h2.1, ?_⟩
          have hgrid := Bool.and_elim_left (Bool.and_elim_left hc)
          rw [decide_eq_true_eq] at hgrid
          rw [h2.2.1, h2.2.2]
          exact hgrid
      · simp only [hc, Bool.false_eq_true, if_false]
        exact Or.inl trivial
    · exact Or.inr h

theorem dilatePass_pix_spec (W H : Int) (fc : RGBA) (cur : Bitmap) :
    ∀ (ps : List (Int × Int)) (st : Bitmap × Pix) (u v : Int),
      (ps.foldl (dilateStep W H fc cur) st).2 u v = st.2 u v ∨
      ((ps.foldl (dilateStep W H fc cur) st).2 u v = fc ∧ inGridP W H u v) := by
  intro ps
  induction ps with
  | nil => intro st u v; exact Or.inl rfl
  | cons p ps ih =>
    intro st u v
    rw [List.foldl_cons]
    rcases ih (dilateStep W H fc cur st p) u v with h | h
    · rw [h, dilateStep]
      by_cases hc : cur p.1 p.2 = true
      · simp only [hc, if_true]
        exact expandAt_pix_spec W H fc cur p.1 p.2 neighborOffsets st u v
      · simp only [hc, Bool.false_eq_true, if_false]
        exact Or.inl trivial
    · exact Or.inr h

theorem dilateLoop_pix_spec (W H : Int) (fc : RGBA) :
    ∀ n (cur : Bitmap) (pix : Pix) (u v : Int),
      (dilateLoop W H fc n cur pix).2 u v = pix u v ∨
      ((dilateLoop W H fc n cur pix).2 u v = fc ∧ inGridP W H u v) := by
  intro n
  induction n with
  | zero => intro cur pix u v; exact Or.inl rfl
  | succ n ih =>
    intro cur pix u v
    rw [dilateLoop]
    rcases ih (dilatePass W H fc cur pix).1 (dilatePass W H fc cur pix).2 u v with h | h
    · rw [h]
      exact dilatePass_pix_spec W H fc cur (posList W H) (cur, pix) u v
    · exact Or.inr h

theorem floodFillCore_pix_spec (W H : Int) (fc : RGBA) (localX localY : Int)
    (pixels : Pix) (u v : Int) :
    (floodFillCore W H fc localX localY pixels).1 u v = pixels u v ∨
    ((floodFillCore W H fc localX localY pixels).1 u v = fc ∧ inGridP W H u v) := by
  rcases dilateLoop_pix_spec W H fc 3
      (fillLoop W H (pixels localX localY) fc (2 * (W * H) + 1).toNat
        [(localX, localY)] pixels (fun _ _ => false)).2
      (fillLoop W H (pixels localX localY) fc (2 * (W * H) + 1).toNat
        [(localX, localY)] pixels (fun _ _ => false)).1 u v with h | h
  · rw [floodFillCore]
    dsimp only
    rw [h]
    exact fillLoop_pix_spec W H (pixels localX localY) fc _ _ pixels _ u v
  · rw [floodFillCore]
    dsimp only
    exact Or.inr h

/-! Lemmas about hexToRgba. -/

theorem hexMatchGroups_some {l : JsStr} {v : Nat × Nat × Nat}
    (h : hexMatchGroups l = some v) : l.length = 6 ∧ l.all isHexDigit = true := by
  rcases l with _ | ⟨c1, l⟩; · simp [hexMatchGroups] at h
  rcases l with _ | ⟨c2, l⟩; · simp [hexMatchGroups] at h
  rcases l with _ | ⟨c3, l⟩; · simp [hexMatchGroups] at h
  rcases l with _ | ⟨c4, l⟩; · simp [hexMatchGroups] at h
  rcases l with _ | ⟨c5, l⟩; · simp [hexMatchGroups] at h
  rcases l with _ | ⟨c6, l⟩; · simp [hexMatchGroups] at h
  rcases l with _ | ⟨c7, l⟩
  · by_cases hb : (isHexDigit c1 && isHexDigit c2 && isHexDigit c3 &&
        isHexDigit c4 && isHexDigit c5 && isHexDigit c6) = true
    · refine ⟨rfl, ?_⟩
      simp only [Bool.and_eq_true] at hb
      simp [List.all_cons, hb.1.1.1.1.1, hb.1.1.1.1.2, hb.1.1.1.2, hb.1.1.2, hb.1.2, hb.2]
    · rw [hexMatchGroups] at h
      simp only [hb, Bool.false_eq_true, if_false] at h
      exact absurd h (by simp)
  · simp [hexMatchGroups] at h

theorem hexMatch_none_of_invalid {s : JsStr} (h : specSixDigitHex s = false) :
    hexMatch s = none := by
  rcases hm : hexMatch s with _ | v
  · rfl
  · exfalso
    rw [hexMatch] at hm
    obtain ⟨hlen, hall⟩ := hexMatchGroups_some hm
    rcases s with _ | ⟨c, rest⟩
    · simp [hexStrip] at hlen
    · by_cases hc : c = '#'
      · rw [hexStrip, if_pos hc] at hlen hall
        rw [specSixDigitHex] at h
        simp [hc, hlen, hall, List.length_cons] at h
      · rw [hexStrip, if_neg hc] at hlen hall
        rw [specSixDigitHex] at h
        simp [hlen, hall] at h

/-- C10: hexToRgba always returns alpha 255; every input that is not a
6-digit hex colour string (with or without a leading `#`) yields opaque red;
consequently the flood fill never writes a pixel with alpha below 255 — any
pixel it changes is set to the (always fully opaque) parsed fill colour. -/
theorem hexToRgba_opaque_spec :
    (∀ s : JsStr, (hexToRgba s).a = 255)
    ∧ (∀ s : JsStr, specSixDigitHex s = false → hexToRgba s = ⟨255, 0, 0, 255⟩)
    ∧ (∀ (W H : Int) (hex : JsStr) (localX localY : Int) (pixels : Pix) (u v : Int),
        (floodFillCore W H (hexToRgba hex) localX localY pixels).1 u v = pixels u v
        ∨ ((floodFillCore W H (hexToRgba hex) localX localY pixels).1 u v).a = 255) := by
  have halpha : ∀ s : JsStr, (hexToRgba s).a = 255 := by
    intro s
    rcases h : hexMatch s with _ | ⟨r, g, b⟩ <;> simp [hexToRgba, h]
  refine ⟨halpha, ?_, ?_⟩
  · intro s h
    rw [hexToRgba, hexMatch_none_of_invalid h]
  · intro W H hex localX localY pixels u v
    rcases floodFillCore_pix_spec W H (hexToRgba hex) localX localY pixels u v with h | h
    · exact Or.inl h
    · rw [h.1]
      exact Or.inr (halpha hex)

/-- C10 witness for the hypothesis of the middle conjunct. -/
theorem hexToRgba_opaque_spec_witness :
    specSixDigitHex ['x', 'y', 'z'] = false
    ∧ hexToRgba ['x', 'y', 'z'] = ⟨255, 0, 0, 255⟩ :=
  ⟨by decide, hexToRgba_opaque_spec.2.1 ['x', 'y', 'z'] (by decide)⟩

/-- C4: if the pixel at the flood-fill seed exactly equals the fill colour
(in particular when a uniformly filled region is filled with its own
colour), the worker returns the empty changed-chunk list and applying that
result leaves the chunk store untouched — the flood fill is a no-op. -/
theorem floodFill_same_color_noop :
    ∀ (s W H : Int) (chunks : List ChunkEntry) (first : ChunkEntry)
      (rest : List ChunkEntry) (lX lY : Int) (fc : RGBA) (st : Store),
      chunks = first :: rest →
      stitch s chunks first.1.1 first.1.2 lX lY = fc →
      handleFloodFill s W H chunks lX lY fc = []
      ∧ applyModifiedChunks chunks st (handleFloodFill s W H chunks lX lY fc) = st := by
  intro s W H chunks first rest lX lY fc st hchunks hseed
  subst hchunks
  have hmain : handleFloodFill s W H (first :: rest) lX lY fc = [] := by
    rw [handleFloodFill]
    by_cases hb : (decide (lX < 0) || decide (W ≤ lX) || decide (lY < 0) ||
        decide (H ≤ lY)) = true
    · simp [hb]
    · simp only [hb, Bool.false_eq_true, if_false]
      rw [if_pos hseed]
  exact ⟨hmain, by rw [hmain]; rfl⟩

/-- C4 witness: a single blank chunk filled with transparent black. -/
theorem floodFill_same_color_noop_witness :
    (([(((0 : Int), (0 : Int)), blankChunk)] : List ChunkEntry)
      = (((0 : Int), (0 : Int)), blankChunk) :: [])
    ∧ stitch 1 [(((0 : Int), (0 : Int)), blankChunk)] 0 0 0 0 = zeroPixel
    ∧ handleFloodFill 1 1 1 [(((0 : Int), (0 : Int)), blankChunk)] 0 0 zeroPixel = []
    ∧ applyModifiedChunks [(((0 : Int), (0 : Int)), blankChunk)] (fun _ => none)
        (handleFloodFill 1 1 1 [(((0 : Int), (0 : Int)), blankChunk)] 0 0 zeroPixel)
      = (fun _ => none) := by
  have h := floodFill_same_color_noop 1 1 1
    [(((0 : Int), (0 : Int)), blankChunk)] (((0 : Int), (0 : Int)), blankChunk) []
    0 0 zeroPixel (fun _ => none) rfl (by decide)
  exact ⟨rfl, by decide, h.1, h.2⟩

/-- C1 counterexample: two draw:chunk updates for the same chunk key arrive
with versions 6 then 5; the final chunk state holds the version-5 bytes, not
the version-6 bytes — the receiver applies updates in arrival order and
never consults the version field. -/
theorem chunk_update_version_counterexample :
    (handleDrawChunkMsg ['s']
        (handleDrawChunkMsg ['s'] (fun _ => none)
          ⟨['s'], ['0', ',', '0'], ['B', '6'], 6⟩)
        ⟨['s'], ['0', ',', '0'], ['B', '5'], 5⟩) ['0', ',', '0']
      = some ['B', '5']
    ∧ (handleDrawChunkMsg ['s']
        (handleDrawChunkMsg ['s'] (fun _ => none)
          ⟨['s'], ['0', ',', '0'], ['B', '6'], 6⟩)
        ⟨['s'], ['0', ',', '0'], ['B', '5'], 5⟩) ['0', ',', '0']
      ≠ some ['B', '6'] := by
  constructor
  · rfl
  · decide

/-- C1 amended: when two draw:chunk updates for the same chunk key arrive at
a peer, the final chunk state reflects the bytes of the update that arrived
last, whatever the two versions are; the handler's result is independent of
the version field. -/
theorem chunk_update_last_arrival_wins :
    ∀ (active : JsStr) (st : JsStr → Option JsStr) (m1 m2 : DrawChunkMsg),
      m2.sceneId = active → m2.chunkKey = m1.chunkKey →
      (handleDrawChunkMsg active (handleDrawChunkMsg active st m1) m2) m2.chunkKey
        = some m2.data
      ∧ ∀ v : Int,
          handleDrawChunkMsg active st ⟨m2.sceneId, m2.chunkKey, m2.data, v⟩
            = handleDrawChunkMsg active st m2 := by
  intro active st m1 m2 h2 _
  refine ⟨?_, fun v => rfl⟩
  rw [handleDrawChunkMsg, if_pos h2, loadChunk]
  simp

/-- C1 witness for the amended statement. -/
theorem chunk_update_last_arrival_wins_witness :
    ((⟨['s'], ['k'], ['B'], 5⟩ : DrawChunkMsg).sceneId = ['s'])
    ∧ ((⟨['s'], ['k'], ['B'], 5⟩ : DrawChunkMsg).chunkKey
        = (⟨['s'], ['k'], ['A'], 6⟩ : DrawChunkMsg).chunkKey)
    ∧ ((handleDrawChunkMsg ['s']
          (handleDrawChunkMsg ['s'] (fun _ => none) ⟨['s'], ['k'], ['A'], 6⟩)
          ⟨['s'], ['k'], ['B'], 5⟩) (⟨['s'], ['k'], ['B'], 5⟩ : DrawChunkMsg).chunkKey
        = some (⟨['s'], ['k'], ['B'], 5⟩ : DrawChunkMsg).data
      ∧ ∀ v : Int,
          handleDrawChunkMsg ['s'] (fun _ => none) ⟨['s'], ['k'], ['B'], v⟩
            = handleDrawChunkMsg ['s'] (fun _ => none) ⟨['s'], ['k'], ['B'], 5⟩) :=
  ⟨rfl, rfl, chunk_update_last_arrival_wins ['s'] (fun _ => none)
    ⟨['s'], ['k'], ['A'], 6⟩ ⟨['s'], ['k'], ['B'], 5⟩ rfl rfl⟩

/-- C7: the server routes a draw:stroke preview to exactly the connected
(OPEN) clients other than the sender, and a committed draw:chunk update to
exactly all connected clients, sender included; the sender is never among
the stroke recipients. -/
theorem draw_routing_spec :
    ∀ (clients : List WsClient) (sender : Nat) (sid payload key data : JsStr)
      (v : Int),
      (∀ i : Nat, i ∈ handleDrawMessage clients sender (.stroke sid payload) ↔
        ∃ c ∈ clients, c.id = i ∧ c.readyState = WS_OPEN ∧ i ≠ sender)
      ∧ (∀ i : Nat, i ∈ handleDrawMessage clients sender (.chunk sid key data v) ↔
        ∃ c ∈ clients, c.id = i ∧ c.readyState = WS_OPEN)
      ∧ sender ∉ handleDrawMessage clients sender (.stroke sid payload) := by
  intro clients sender sid payload key data v
  refine ⟨?_, ?_, ?_⟩
  · intro i
    simp only [handleDrawMessage, broadcastExcept, List.mem_map, List.mem_filter,
      Bool.and_eq_true, Bool.not_eq_true', beq_eq_false_iff_ne, beq_iff_eq]
    constructor
    · rintro ⟨c, ⟨hc, hne, hopen⟩, rfl⟩
      exact ⟨c, hc, rfl, hopen, hne⟩
    · rintro ⟨c, hc, rfl, hopen, hne⟩
      exact ⟨c, ⟨hc, hne, hopen⟩, rfl⟩
  · intro i
    simp only [handleDrawMessage, broadcast, List.mem_map, List.mem_filter,
      beq_iff_eq]
    constructor
    · rintro ⟨c, ⟨hc, hopen⟩, rfl⟩
      exact ⟨c, hc, rfl, hopen⟩
    · rintro ⟨c, hc, rfl, hopen⟩
      exact ⟨c, ⟨hc, hopen⟩, rfl⟩
  · simp only [handleDrawMessage, broadcastExcept, List.mem_map, List.mem_filter,
      Bool.and_eq_true, Bool.not_eq_true', beq_eq_false_iff_ne, beq_iff_eq]
    rintro ⟨c, ⟨_, hne, _⟩, rfl⟩
    exact hne rfl

/-- C8: querying the chunk store for a never-created chunk key returns
`none` (absent), not an error, and leaves the chunk map unchanged. -/
theorem getChunkData_absent_spec :
    ∀ (chunks : Store) (k : Int × Int), chunks k = none →
      getChunkData chunks k = (none, chunks) := by
  intro chunks k h
  simp only [getChunkData, h]

/-- C8 witness: the empty store queried at key (0, 0). -/
theorem getChunkData_absent_spec_witness :
    ((fun _ => none : Store) (0, 0) = none)
    ∧ getChunkData (fun _ => none) (0, 0) = (none, fun _ => none) :=
  ⟨rfl, getChunkData_absent_spec (fun _ => none) (0, 0) rfl⟩

/-! Characterization of one dilation pass (claim C3). -/

theorem foldl_preserve {α σ : Type} (P : σ → Prop) (f : σ → α → σ)
    (h : ∀ st a, P st → P (f st a)) :
    ∀ (l : List α) (st : σ), P st → P (l.foldl f st) := by
  intro l
  induction l with
  | nil => intro st hst; exact hst
  | cons a l ih => intro st hst; exact ih _ (h st a hst)

theorem neighborOffsets_neg :
    ∀ d ∈ neighborOffsets, ((-d.1, -d.2) : Int × Int) ∈ neighborOffsets := by
  decide

theorem mem_posList (W H : Int) (p : Int × Int) :
    p ∈ posList W H ↔ inGridP W H p.1 p.2 := by
  rcases p with ⟨px, py⟩
  simp only [posList, List.mem_flatMap, List.mem_map, mem_intRange]
  constructor
  · rintro ⟨y, hy, x, hx, heq⟩
    obtain ⟨rfl, rfl⟩ := Prod.mk.injEq .. ▸ heq
    exact ⟨hx.1, by omega, hy.1, by omega⟩
  · rintro ⟨h1, h2, h3, h4⟩
    exact ⟨py, ⟨h3, by omega⟩, px, ⟨h1, by omega⟩, rfl⟩

theorem expandStep_bitmap (W H : Int) (fc : RGBA) (cur : Bitmap) (x y : Int)
    (st : Bitmap × Pix) (d : Int × Int) (p q : Int) :
    ((expandStep W H fc cur x y st d).1 p q = true) ↔
    (st.1 p q = true ∨
      (p = x + d.1 ∧ q = y + d.2 ∧ inGridP W H p q ∧ cur p q = false)) := by
  rw [expandStep]
  by_cases hC : (decide (0 ≤ x + d.1 ∧ x + d.1 < W ∧ 0 ≤ y + d.2 ∧ y + d.2 < H) &&
      !(cur (x + d.1) (y + d.2)) && !(st.1 (x + d.1) (y + d.2))) = true
  · simp only [hC, if_true, setBit]
    rw [Bool.and_eq_true, Bool.and_eq_true, Bool.not_eq_true', decide_eq_true_eq] at hC
    by_cases hpq : p = x + d.1 ∧ q = y + d.2
    · rw [if_pos hpq]
      simp only [true_iff]
      refine Or.inr ⟨hpq.1, hpq.2, ?_, ?_⟩
      · rw [hpq.1, hpq.2]; exact hC.1.1
      · rw [hpq.1, hpq.2]; exact hC.1.2
    · rw [if_neg hpq]
      constructor
      · exact Or.inl
      · rintro (h | h)
        · exact h
        · exact absurd ⟨h.1, h.2.1⟩ hpq
  · simp only [hC, Bool.false_eq_true, if_false]
    constructor
    · exact Or.inl
    · rintro (h | ⟨rfl, rfl, hgrid, hcur⟩)
      · exact h
      · cases hb : st.1 (x + d.1) (y + d.2) with
        | true => rfl
        | false => exact absurd (by simp [hgrid, hcur, hb]) hC

theorem expandFold_bitmap (W H : Int) (fc : RGBA) (cur : Bitmap) (x y : Int) :
    ∀ (ds : List (Int × Int)) (st : Bitmap × Pix) (p q : Int),
      ((ds.foldl (expandStep W H fc cur x y) st).1 p q = true) ↔
      (st.1 p q = true ∨
        ∃ d ∈ ds, p = x + d.1 ∧ q = y + d.2 ∧ inGridP W H p q ∧ cur p q = false) := by
  intro ds
  induction ds with
  | nil => intro st p q; simp
  | cons d ds ih =>
    intro st p q
    rw [List.foldl_cons, ih, expandStep_bitmap]
    constructor
    · rintro ((h | h) | h)
      · exact Or.inl h
      · exact Or.inr ⟨d, List.mem_cons_self _ _, h⟩
      · obtain ⟨e, he, hrest⟩ := h
        exact Or.inr ⟨e, List.mem_cons_of_mem _ he, hrest⟩
    · rintro (h | ⟨e, he, hrest⟩)
      · exact Or.inl (Or.inl h)
      · rcases List.mem_cons.1 he with rfl | he2
        · exact Or.inl (Or.inr hrest)
        · exact Or.inr ⟨e, he2, hrest⟩

theorem dilateStep_bitmap (W H : Int) (fc : RGBA) (cur : Bitmap)
    (st : Bitmap × Pix) (z : Int × Int) (p q : Int) :
    ((dilateStep W H fc cur st z).1 p q = true) ↔
    (st.1 p q = true ∨
      (cur z.1 z.2 = true ∧ ∃ d ∈ neighborOffsets,
        p = z.1 + d.1 ∧ q = z.2 + d.2 ∧ inGridP W H p q ∧ cur p q = false)) := by
  rw [dilateStep]
  by_cases hz : cur z.1 z.2 = true
  · rw [if_pos hz, expandAt, expandFold_bitmap]
    simp [hz]
  · rw [if_neg hz]
    simp [hz]

theorem dilateFold_bitmap (W H : Int) (fc : RGBA) (cur : Bitmap) :
    ∀ (ps : List (Int × Int)) (st : Bitmap × Pix) (p q : Int),
      ((ps.foldl (dilateStep W H fc cur) st).1 p q = true) ↔
      (st.1 p q = true ∨
        ∃ z ∈ ps, cur z.1 z.2 = true ∧ ∃ d ∈ neighborOffsets,
          p = z.1 + d.1 ∧ q = z.2 + d.2 ∧ inGridP W H p q ∧ cur p q = false) := by
  intro ps
  induction ps with
  | nil => intro st p q; simp
  | cons z ps ih =>
    intro st p q
    rw [List.foldl_cons, ih, dilateStep_bitmap]
    constructor
    · rintro ((h | h) | h)
      · exact Or.inl h
      · exact Or.inr ⟨z, List.mem_cons_self _ _, h⟩
      · obtain ⟨w, hw, hrest⟩ := h
        exact Or.inr ⟨w, List.mem_cons_of_mem _ hw, hrest⟩
    · rintro (h | ⟨w, hw, hrest⟩)
      · exact Or.inl (Or.inl h)
      · rcases List.mem_cons.1 hw with rfl | hw2
        · exact Or.inl (Or.inr hrest)
        · exact Or.inr ⟨w, hw2, hrest⟩

theorem dilatePass_bitmap (W H : Int) (fc : RGBA) (cur : Bitmap) (pix : Pix)
    (hcur : ∀ p q, cur p q = true → inGridP W H p q) (p q : Int) :
    (dilatePass W H fc cur pix).1 p q
      = (cur p q || (decide (inGridP W H p q) &&
          neighborOffsets.any (fun d => cur (p + d.1) (q + d.2)))) := by
  rw [Bool.eq_iff_iff, dilatePass, dilateFold_bitmap]
  simp only [Bool.or_eq_true, Bool.and_eq_true, decide_eq_true_eq, List.any_eq_true]
  constructor
  · rintro (h | ⟨z, _, hzcur, d, hd, hp, hq, hgrid, hcurpq⟩)
    · exact Or.inl h
    · refine Or.inr ⟨hgrid, (-d.1, -d.2), neighborOffsets_neg d hd, ?_⟩
      have h1 : p + -d.1 = z.1 := by omega
      have h2 : q + -d.2 = z.2 := by omega
      rw [h1, h2]
      exact hzcur
  · rintro (h | ⟨hgrid, d, hd, hcurn⟩)
    · exact Or.inl h
    · by_cases hpq : cur p q = true
      · exact Or.inl hpq
      · refine Or.inr ⟨(p + d.1, q + d.2), ?_, hcurn, (-d.1, -d.2),
          neighborOffsets_neg d hd, by omega, by omega, hgrid,
          Bool.not_eq_true _ ▸ hpq⟩
        rw [mem_posList]
        exact hcur _ _ hcurn

theorem dilateInv_step (W H : Int) (fc : RGBA) (cur : Bitmap) (pix : Pix) :
    ∀ (st : Bitmap × Pix) (z : Int × Int),
      ((∀ p q, cur p q = true → st.1 p q = true) ∧
        (∀ p q, st.2 p q = if st.1 p q = true ∧ cur p q = false then fc else pix p q)) →
      ((∀ p q, cur p q = true → (dilateStep W H fc cur st z).1 p q = true) ∧
        (∀ p q, (dilateStep W H fc cur st z).2 p q =
          if (dilateStep W H fc cur st z).1 p q = true ∧ cur p q = false then fc
          else pix p q)) := by
  intro st z hst
  rw [dilateStep]
  by_cases hz : cur z.1 z.2 = true
  · rw [if_pos hz, expandAt]
    refine foldl_preserve
      (fun st2 : Bitmap × Pix =>
        (∀ p q, cur p q = true → st2.1 p q = true) ∧
        (∀ p q, st2.2 p q = if st2.1 p q = true ∧ cur p q = false then fc else pix p q))
      (expandStep W H fc cur z.1 z.2) ?_ neighborOffsets st hst
    intro st2 d ⟨h1, h2⟩
    rw [expandStep]
    by_cases hC : (decide (0 ≤ z.1 + d.1 ∧ z.1 + d.1 < W ∧ 0 ≤ z.2 + d.2 ∧ z.2 + d.2 < H) &&
        !(cur (z.1 + d.1) (z.2 + d.2)) && !(st2.1 (z.1 + d.1) (z.2 + d.2))) = true
    · rw [if_pos hC]
      rw [Bool.and_eq_true, Bool.and_eq_true, Bool.not_eq_true', Bool.not_eq_true'] at hC
      constructor
      · intro p q hc
        simp only [setBit]
        by_cases hpq : p = z.1 + d.1 ∧ q = z.2 + d.2
        · rw [if_pos hpq]
        · rw [if_neg hpq]; exact h1 p q hc
      · intro p q
        by_cases hpq : p = z.1 + d.1 ∧ q = z.2 + d.2
        · obtain ⟨rfl, rfl⟩ := hpq
          simp [setPixelAt, setBit, hC.1.2]
        · simp only [setPixelAt, setBit, if_neg hpq]
          exact h2 p q
    · rw [if_neg hC]; exact ⟨h1, h2⟩
  · rw [if_neg hz]; exact hst

theorem dilatePass_pix_char (W H : Int) (fc : RGBA) (cur : Bitmap) (pix : Pix)
    (p q : Int) :
    (dilatePass W H fc cur pix).2 p q =
      if (dilatePass W H fc cur pix).1 p q = true ∧ cur p q = false then fc
      else pix p q := by
  have hinv := foldl_preserve
    (fun st : Bitmap × Pix =>
      (∀ p q, cur p q = true → st.1 p q = true) ∧
      (∀ p q, st.2 p q = if st.1 p q = true ∧ cur p q = false then fc else pix p q))
    (dilateStep W H fc cur) (dilateInv_step W H fc cur pix)
    (posList W H) (cur, pix) ?_
  · exact hinv.2 p q
  · refine ⟨fun p q hc => hc, fun p q => ?_⟩
    by_cases hc : cur p q = true
    · rw [if_neg]; rintro ⟨_, hfalse⟩; rw [hc] at hfalse; cases hfalse
    · rw [if_neg]; rintro ⟨htrue, _⟩; exact hc htrue

/-- C3: the flood fill performs exactly three dilation iterations; within
one pass every pixel filled in the pass's snapshot paints each of its 8
in-grid neighbours that is not yet filled with the fill colour and marks it
filled, and no other pixel changes: the filled bitmap after a pass is
exactly the snapshot plus its in-grid 8-neighbourhood (so a pixel newly
filled during a pass never expands within that pass, and the region grows
by at most one 8-neighbourhood ring per iteration). -/
theorem dilation_three_pass_spec :
    ∀ (W H : Int) (fc : RGBA) (cur : Bitmap) (pix : Pix),
      (∀ p q, cur p q = true → inGridP W H p q) →
      (dilateLoop W H fc 3 cur pix
        = dilatePass W H fc
            (dilatePass W H fc (dilatePass W H fc cur pix).1
              (dilatePass W H fc cur pix).2).1
            (dilatePass W H fc (dilatePass W H fc cur pix).1
              (dilatePass W H fc cur pix).2).2)
      ∧ (∀ p q, (dilatePass W H fc cur pix).1 p q
          = (cur p q || (decide (inGridP W H p q) &&
              neighborOffsets.any (fun d => cur (p + d.1) (q + d.2)))))
      ∧ (∀ p q, (dilatePass W H fc cur pix).2 p q
          = if (dilatePass W H fc cur pix).1 p q = true ∧ cur p q = false then fc
            else pix p q) := by
  intro W H fc cur pix hcur
  refine ⟨rfl, fun p q => dilatePass_bitmap W H fc cur pix hcur p q,
    fun p q => dilatePass_pix_char W H fc cur pix p q⟩

/-- C3 witness: a 3x3 grid with the centre pixel filled. -/
theorem dilation_three_pass_spec_witness :
    (∀ p q : Int, (fun u v : Int => decide (u = 1 ∧ v = 1)) p q = true →
      inGridP 3 3 p q)
    ∧ ((dilateLoop 3 3 ⟨255, 0, 0, 255⟩ 3
          (fun u v : Int => decide (u = 1 ∧ v = 1)) blankChunk
        = dilatePass 3 3 ⟨255, 0, 0, 255⟩
            (dilatePass 3 3 ⟨255, 0, 0, 255⟩
              (dilatePass 3 3 ⟨255, 0, 0, 255⟩
                (fun u v : Int => decide (u = 1 ∧ v = 1)) blankChunk).1
              (dilatePass 3 3 ⟨255, 0, 0, 255⟩
                (fun u v : Int => decide (u = 1 ∧ v = 1)) blankChunk).2).1
            (dilatePass 3 3 ⟨255, 0, 0, 255⟩
              (dilatePass 3 3 ⟨255, 0, 0, 255⟩
                (fun u v : Int => decide (u = 1 ∧ v = 1)) blankChunk).1
              (dilatePass 3 3 ⟨255, 0, 0, 255⟩
                (fun u v : Int => decide (u = 1 ∧ v = 1)) blankChunk).2).2)
      ∧ (∀ p q, (dilatePass 3 3 ⟨255, 0, 0, 255⟩
            (fun u v : Int => decide (u = 1 ∧ v = 1)) blankChunk).1 p q
          = ((fun u v : Int => decide (u = 1 ∧ v = 1)) p q ||
              (decide (inGridP 3 3 p q) &&
                neighborOffsets.any (fun d =>
                  (fun u v : Int => decide (u = 1 ∧ v = 1)) (p + d.1) (q + d.2)))))
      ∧ (∀ p q, (dilatePass 3 3 ⟨255, 0, 0, 255⟩
            (fun u v : Int => decide (u = 1 ∧ v = 1)) blankChunk).2 p q
          = if (dilatePass 3 3 ⟨255, 0, 0, 255⟩
                (fun u v : Int => decide (u = 1 ∧ v = 1)) blankChunk).1 p q = true
                ∧ (fun u v : Int => decide (u = 1 ∧ v = 1)) p q = false
            then ⟨255, 0, 0, 255⟩ else blankChunk p q)) := by
  have hcur : ∀ p q : Int, (fun u v : Int => decide (u = 1 ∧ v = 1)) p q = true →
      inGridP 3 3 p q := by
    intro p q h
    simp only [decide_eq_true_eq] at h
    omega
  exact ⟨hcur, dilation_three_pass_spec 3 3 ⟨255, 0, 0, 255⟩
    (fun u v : Int => decide (u = 1 ∧ v = 1)) blankChunk hcur⟩

/-! Congruence lemmas: the flood fill reads the unified buffer only inside
the grid, so its outputs depend only on the in-grid pixels. -/

theorem colorsMatchAt_congr {W H : Int} {p1 p2 : Pix} (h : gridEq W H p1 p2)
    (x y : Int) (t : RGBA) :
    colorsMatchAt W H p1 x y t = colorsMatchAt W H p2 x y t := by
  rw [colorsMatchAt, colorsMatchAt]
  by_cases hg : (0 ≤ x ∧ x < W ∧ 0 ≤ y ∧ y < H)
  · rw [h x y hg.1 hg.2.1 hg.2.2.1 hg.2.2.2]
  · simp [hg]

theorem gridEq_setPixelAt {W H : Int} {p1 p2 : Pix} (h : gridEq W H p1 p2)
    (x y : Int) (c : RGBA) :
    gridEq W H (setPixelAt p1 x y c) (setPixelAt p2 x y c) := by
  intro u v h1 h2 h3 h4
  rw [setPixelAt, setPixelAt]
  by_cases hc : u = x ∧ v = y
  · rw [if_pos hc, if_pos hc]
  · rw [if_neg hc, if_neg hc]
    exact h u v h1 h2 h3 h4

theorem walkLeft_congr {W H : Int} {p1 p2 : Pix} (h : gridEq W H p1 p2)
    (y : Int) (t : RGBA) :
    ∀ (fuel : Nat) (x : Int),
      walkLeft W H p1 y t fuel x = walkLeft W H p2 y t fuel x := by
  intro fuel
  induction fuel with
  | zero => intro x; rfl
  | succ fuel ih =>
    intro x
    rw [walkLeft, walkLeft, colorsMatchAt_congr h]
    by_cases hg : (decide (0 < x) && colorsMatchAt W H p2 (x - 1) y t) = true
    · rw [if_pos hg, if_pos hg, ih]
    · rw [if_neg hg, if_neg hg]

theorem fillRight_congr (W H : Int) (t fc : RGBA) (y : Int) :
    ∀ (fuel : Nat) (x : Int) (sa sb : Bool) (p1 p2 : Pix) (filled : Bitmap)
      (adds : List (Int × Int)), gridEq W H p1 p2 →
      (fillRight W H t fc y fuel x sa sb p1 filled adds).2
        = (fillRight W H t fc y fuel x sa sb p2 filled adds).2
      ∧ gridEq W H (fillRight W H t fc y fuel x sa sb p1 filled adds).1
          (fillRight W H t fc y fuel x sa sb p2 filled adds).1 := by
  intro fuel
  induction fuel with
  | zero => intro x sa sb p1 p2 filled adds h; exact ⟨rfl, h⟩
  | succ fuel ih =>
    intro x sa sb p1 p2 filled adds h
    simp only [fillRight]
    rw [colorsMatchAt_congr h]
    by_cases hg : (decide (x < W) && colorsMatchAt W H p2 x y t) = true
    · simp only [hg, if_true]
      by_cases hf : filled x y = true
      · simp only [hf, if_true]
        exact ih _ _ _ _ _ _ _ h
      · simp only [hf, Bool.false_eq_true, if_false]
        have hset : gridEq W H (setPixelAt p1 x y fc) (setPixelAt p2 x y fc) :=
          gridEq_setPixelAt h x y fc
        rw [colorsMatchAt_congr hset x (y - 1) t, colorsMatchAt_congr hset x (y + 1) t]
        exact ih _ _ _ _ _ _ _ hset
    · simp only [hg, Bool.false_eq_true, if_false]
      exact ⟨trivial, h⟩

theorem fillLoop_congr (W H : Int) (t fc : RGBA) :
    ∀ (fuel : Nat) (queue : List (Int × Int)) (p1 p2 : Pix) (filled : Bitmap),
      gridEq W H p1 p2 →
      (fillLoop W H t fc fuel queue p1 filled).2
        = (fillLoop W H t fc fuel queue p2 filled).2
      ∧ gridEq W H (fillLoop W H t fc fuel queue p1 filled).1
          (fillLoop W H t fc fuel queue p2 filled).1 := by
  intro fuel
  induction fuel with
  | zero =>
    intro queue p1 p2 filled h
    rcases queue with _ | ⟨⟨x, y⟩, rest⟩
    · exact ⟨rfl, h⟩
    · exact ⟨rfl, h⟩
  | succ fuel ih =>
    intro queue p1 p2 filled h
    rcases queue with _ | ⟨⟨x, y⟩, rest⟩
    · exact ⟨rfl, h⟩
    · simp only [fillLoop]
      by_cases hy : (decide (y < 0) || decide (H ≤ y)) = true
      · simp only [hy, if_true]
        exact ih _ _ _ _ h
      · simp only [hy, Bool.false_eq_true, if_false]
        rw [walkLeft_congr h]
        obtain ⟨h2, hpix⟩ := fillRight_congr W H t fc y
          (W - walkLeft W H p2 y t x.toNat x).toNat
          (walkLeft W H p2 y t x.toNat x) false false p1 p2 filled [] h
        rw [h2]
        exact ih _ _ _ _ hpix

theorem expandFold_congr (W H : Int) (fc : RGBA) (cur : Bitmap) (x y : Int) :
    ∀ (ds : List (Int × Int)) (st1 st2 : Bitmap × Pix),
      st1.1 = st2.1 → gridEq W H st1.2 st2.2 →
      (ds.foldl (expandStep W H fc cur x y) st1).1
        = (ds.foldl (expandStep W H fc cur x y) st2).1
      ∧ gridEq W H (ds.foldl (expandStep W H fc cur x y) st1).2
          (ds.foldl (expandStep W H fc cur x y) st2).2 := by
  intro ds
  induction ds with
  | nil => intro st1 st2 hb hp; exact ⟨hb, hp⟩
  | cons d ds ih =>
    intro st1 st2 hb hp
    rw [List.foldl_cons, List.foldl_cons]
    apply ih
    · rw [expandStep, expandStep, hb]
      by_cases hC : (decide (0 ≤ x + d.1 ∧ x + d.1 < W ∧ 0 ≤ y + d.2 ∧ y + d.2 < H) &&
          !(cur (x + d.1) (y + d.2)) && !(st2.1 (x + d.1) (y + d.2))) = true
      · rw [if_pos hC, if_pos hC]
      · rw [if_neg hC, if_neg hC]
        exact hb
    · rw [expandStep, expandStep, hb]
      by_cases hC : (decide (0 ≤ x + d.1 ∧ x + d.1 < W ∧ 0 ≤ y + d.2 ∧ y + d.2 < H) &&
          !(cur (x + d.1) (y + d.2)) && !(st2.1 (x + d.1) (y + d.2))) = true
      · rw [if_pos hC, if_pos hC]
        exact gridEq_setPixelAt hp _ _ _
      · rw [if_neg hC, if_neg hC]
        exact hp

theorem dilateFold_congr (W H : Int) (fc : RGBA) (cur : Bitmap) :
    ∀ (ps : List (Int × Int)) (st1 st2 : Bitmap × Pix),
      st1.1 = st2.1 → gridEq W H st1.2 st2.2 →
      (ps.foldl (dilateStep W H fc cur) st1).1
        = (ps.foldl (dilateStep W H fc cur) st2).1
      ∧ gridEq W H (ps.foldl (dilateStep W H fc cur) st1).2
          (ps.foldl (dilateStep W H fc cur) st2).2 := by
  intro ps
  induction ps with
  | nil => intro st1 st2 hb hp; exact ⟨hb, hp⟩
  | cons z ps ih =>
    intro st1 st2 hb hp
    rw [List.foldl_cons, List.foldl_cons]
    apply ih
    · rw [dilateStep, dilateStep]
      by_cases hz : cur z.1 z.2 = true
      · rw [if_pos hz, if_pos hz, expandAt, expandAt]
        exact (expandFold_congr W H fc cur z.1 z.2 neighborOffsets st1 st2 hb hp).1
      · rw [if_neg hz, if_neg hz]
        exact hb
    · rw [dilateStep, dilateStep]
      by_cases hz : cur z.1 z.2 = true
      · rw [if_pos hz, if_pos hz, expandAt, expandAt]
        exact (expandFold_congr W H fc cur z.1 z.2 neighborOffsets st1 st2 hb hp).2
      · rw [if_neg hz, if_neg hz]
        exact hp

theorem dilateLoop_congr (W H : Int) (fc : RGBA) :
    ∀ (n : Nat) (cur : Bitmap) (pix1 pix2 : Pix), gridEq W H pix1 pix2 →
      (dilateLoop W H fc n cur pix1).1 = (dilateLoop W H fc n cur pix2).1
      ∧ gridEq W H (dilateLoop W H fc n cur pix1).2 (dilateLoop W H fc n cur pix2).2 := by
  intro n
  induction n with
  | zero => intro cur pix1 pix2 h; exact ⟨rfl, h⟩
  | succ n ih =>
    intro cur pix1 pix2 h
    rw [dilateLoop, dilateLoop]
    obtain ⟨hb, hp⟩ := dilateFold_congr W H fc cur (posList W H) (cur, pix1) (cur, pix2)
      rfl h
    rw [dilatePass, dilatePass] at *
    rw [hb]
    exact ih _ _ _ hp

theorem floodFillCore_congr (W H : Int) (fc : RGBA) (lX lY : Int)
    (p1 p2 : Pix) (h : gridEq W H p1 p2) (hseed : inGridP W H lX lY) :
    (floodFillCore W H fc lX lY p1).2 = (floodFillCore W H fc lX lY p2).2
    ∧ gridEq W H (floodFillCore W H fc lX lY p1).1 (floodFillCore W H fc lX lY p2).1 := by
  rw [floodFillCore, floodFillCore]
  have ht : p1 lX lY = p2 lX lY := h lX lY hseed.1 hseed.2.1 hseed.2.2.1 hseed.2.2.2
  rw [ht]
  obtain ⟨hfb, hfp⟩ := fillLoop_congr W H (p2 lX lY) fc (2 * (W * H) + 1).toNat
    [(lX, lY)] p1 p2 (fun _ _ => false) h
  rw [hfb]
  obtain ⟨hdb, hdp⟩ := dilateLoop_congr W H fc 3
    (fillLoop W H (p2 lX lY) fc (2 * (W * H) + 1).toNat [(lX, lY)] p2 (fun _ _ => false)).2
    (fillLoop W H (p2 lX lY) fc (2 * (W * H) + 1).toNat [(lX, lY)] p1 (fun _ _ => false)).1
    (fillLoop W H (p2 lX lY) fc (2 * (W * H) + 1).toNat [(lX, lY)] p2 (fun _ _ => false)).1
    hfp
  exact ⟨hdb, hdp⟩

/-! Frame lemmas for the client chunk store around a flood fill. -/

theorem getOrCreateChunk_frame (store : Store) (k k2 : Int × Int) (h : k2 ≠ k) :
    (getOrCreateChunk store k).2 k2 = store k2 := by
  rw [getOrCreateChunk]
  rcases store k with _ | c
  · simp only
    rw [if_neg h]
  · rfl

theorem gatherFold_frame :
    ∀ (keys : List (Int × Int)) (acc : List ChunkEntry × Store) (k : Int × Int),
      k ∉ keys → (keys.foldl gatherStep acc).2 k = acc.2 k := by
  intro keys
  induction keys with
  | nil => intro acc k _; rfl
  | cons k1 keys ih =>
    intro acc k hk
    rw [List.foldl_cons, ih _ _ (fun h => hk (List.mem_cons_of_mem _ h))]
    rw [gatherStep]
    exact getOrCreateChunk_frame acc.2 k1 k (fun h => hk (h ▸ List.mem_cons_self _ _))

theorem gatherFold_keys :
    ∀ (keys : List (Int × Int)) (acc : List ChunkEntry × Store),
      (keys.foldl gatherStep acc).1.map Prod.fst = acc.1.map Prod.fst ++ keys := by
  intro keys
  induction keys with
  | nil => intro acc; simp
  | cons k1 keys ih =>
    intro acc
    rw [List.foldl_cons, ih]
    rw [gatherStep]
    simp

theorem applyFold_frame :
    ∀ (modified chunks : List ChunkEntry) (st : Store) (k : Int × Int),
      k ∉ modified.map Prod.fst → (modified.foldl (applyOne chunks) st) k = st k := by
  intro modified
  induction modified with
  | nil => intro chunks st k _; rfl
  | cons e modified ih =>
    intro chunks st k hk
    rw [List.foldl_cons]
    have hk1 : k ∉ modified.map Prod.fst := fun h => hk (List.mem_cons_of_mem _ h)
    have hk2 : k ≠ e.1 := fun h => hk (h ▸ List.mem_cons_self _ _)
    rw [ih _ _ _ hk1]
    rw [applyOne]
    by_cases hl : (chunks.lookup e.1).isSome = true
    · rw [if_pos hl]
      rw [if_neg hk2]
    · rw [if_neg hl]

theorem applyModified_frame :
    ∀ (modified chunks : List ChunkEntry) (st : Store) (k : Int × Int),
      k ∉ modified.map Prod.fst → applyModifiedChunks chunks st modified k = st k := by
  intro modified chunks st k hk
  rw [applyModifiedChunks]
  exact applyFold_frame modified chunks st k hk

theorem handleFloodFill_keys (s W H : Int) (chunks : List ChunkEntry)
    (lX lY : Int) (fc : RGBA) :
    (handleFloodFill s W H chunks lX lY fc).map Prod.fst = []
    ∨ (handleFloodFill s W H chunks lX lY fc).map Prod.fst = chunks.map Prod.fst := by
  rcases chunks with _ | ⟨first, rest⟩
  · exact Or.inl rfl
  · rw [handleFloodFill]
    by_cases hb : (decide (lX < 0) || decide (W ≤ lX) || decide (lY < 0) ||
        decide (H ≤ lY)) = true
    · rw [if_pos hb]
      exact Or.inl rfl
    · rw [if_neg (fun h => hb h)]
      by_cases hc : stitch s (first :: rest) first.1.1 first.1.2 lX lY = fc
      · rw [if_pos hc]
        exact Or.inl rfl
      · rw [if_neg hc]
        refine Or.inr ?_
        rw [List.map_map]
        rfl

/-- C5: a flood fill modifies nothing outside the 3x3 chunk neighbourhood of
the seed — the client store is untouched at every other key; within the
worker, every write to the unified buffer stays inside the grid (the buffer
is unchanged outside it), and every read stays inside the grid (the
computation depends only on the in-grid pixels: on buffers that agree on the
grid it produces the same filled bitmap and grid-equal pixels). -/
theorem floodFill_3x3_frame :
    (∀ (store : Store) (wx wy : Int) (hex : JsStr) (k : Int × Int),
      k ∉ neighborhoodKeys (wx.fdiv CHUNK_SIZE) (wy.fdiv CHUNK_SIZE) →
      clientFloodFill store wx wy hex k = store k)
    ∧ (∀ (W H : Int) (fc : RGBA) (lX lY : Int) (pixels : Pix) (u v : Int),
        ¬ inGridP W H u v →
        (floodFillCore W H fc lX lY pixels).1 u v = pixels u v)
    ∧ (∀ (W H : Int) (fc : RGBA) (lX lY : Int) (p1 p2 : Pix),
        gridEq W H p1 p2 → inGridP W H lX lY →
        (floodFillCore W H fc lX lY p1).2 = (floodFillCore W H fc lX lY p2).2
        ∧ gridEq W H (floodFillCore W H fc lX lY p1).1
            (floodFillCore W H fc lX lY p2).1) := by
  refine ⟨?_, ?_, ?_⟩
  · intro store wx wy hex k hk
    rw [clientFloodFill]
    have hparse : (splitComma (worldToChunkKey wx wy)).map strToInt
        = [wx.fdiv CHUNK_SIZE, wy.fdiv CHUNK_SIZE] := by
      rw [worldToChunkKey, splitComma_chunkKeyOf]
      simp [strToInt_intToChars]
    rw [hparse]
    dsimp only
    have hgk : (gatherChunks store (wx.fdiv CHUNK_SIZE) (wy.fdiv CHUNK_SIZE)).1.map
        Prod.fst = neighborhoodKeys (wx.fdiv CHUNK_SIZE) (wy.fdiv CHUNK_SIZE) := by
      rw [gatherChunks, gatherFold_keys]
      rfl
    have hmod : k ∉ (handleFloodFill CHUNK_SIZE (3 * CHUNK_SIZE) (3 * CHUNK_SIZE)
        (gatherChunks store (wx.fdiv CHUNK_SIZE) (wy.fdiv CHUNK_SIZE)).1
        (wx - (wx.fdiv CHUNK_SIZE - 1) * CHUNK_SIZE)
        (wy - (wy.fdiv CHUNK_SIZE - 1) * CHUNK_SIZE) (hexToRgba hex)).map Prod.fst := by
      rcases handleFloodFill_keys CHUNK_SIZE (3 * CHUNK_SIZE) (3 * CHUNK_SIZE)
        (gatherChunks store (wx.fdiv CHUNK_SIZE) (wy.fdiv CHUNK_SIZE)).1
        (wx - (wx.fdiv CHUNK_SIZE - 1) * CHUNK_SIZE)
        (wy - (wy.fdiv CHUNK_SIZE - 1) * CHUNK_SIZE) (hexToRgba hex) with he | he
      · rw [he]; exact List.not_mem_nil k
      · rw [he, hgk]; exact hk
    rw [applyModified_frame _ _ _ _ hmod, gatherChunks, gatherFold_frame _ _ _ hk]
  · intro W H fc lX lY pixels u v hout
    rcases floodFillCore_pix_spec W H fc lX lY pixels u v with h | h
    · exact h
    · exact absurd h.2 hout
  · intro W H fc lX lY p1 p2 h hseed
    exact floodFillCore_congr W H fc lX lY p1 p2 h hseed

/-- C5 witness: concrete instances for all three hypothesized parts. -/
theorem floodFill_3x3_frame_witness :
    (((5 : Int), (5 : Int)) ∉ neighborhoodKeys ((0 : Int).fdiv CHUNK_SIZE)
        ((0 : Int).fdiv CHUNK_SIZE)
      ∧ clientFloodFill (fun _ => none) 0 0 ['x'] ((5 : Int), (5 : Int))
          = (fun _ => none : Store) ((5 : Int), (5 : Int)))
    ∧ (¬ inGridP 1 1 5 0
      ∧ (floodFillCore 1 1 ⟨255, 0, 0, 255⟩ 0 0 blankChunk).1 5 0 = blankChunk 5 0)
    ∧ (gridEq 1 1 blankChunk blankChunk ∧ inGridP 1 1 0 0
      ∧ ((floodFillCore 1 1 ⟨255, 0, 0, 255⟩ 0 0 blankChunk).2
          = (floodFillCore 1 1 ⟨255, 0, 0, 255⟩ 0 0 blankChunk).2
        ∧ gridEq 1 1 (floodFillCore 1 1 ⟨255, 0, 0, 255⟩ 0 0 blankChunk).1
            (floodFillCore 1 1 ⟨255, 0, 0, 255⟩ 0 0 blankChunk).1)) := by
  have h1 : ((5 : Int), (5 : Int)) ∉ neighborhoodKeys ((0 : Int).fdiv CHUNK_SIZE)
      ((0 : Int).fdiv CHUNK_SIZE) := by decide
  have h2 : ¬ inGridP 1 1 5 0 := by decide
  have h3 : gridEq 1 1 blankChunk blankChunk := fun _ _ _ _ _ _ => rfl
  have h4 : inGridP 1 1 0 0 := by decide
  exact ⟨⟨h1, floodFill_3x3_frame.1 (fun _ => none) 0 0 ['x'] (5, 5) h1⟩,
    ⟨h2, floodFill_3x3_frame.2.1 1 1 ⟨255, 0, 0, 255⟩ 0 0 blankChunk 5 0 h2⟩,
    ⟨h3, h4, floodFill_3x3_frame.2.2 1 1 ⟨255, 0, 0, 255⟩ 0 0 blankChunk blankChunk h3 h4⟩⟩

/-! Claim C2: what the copy-back stage returns. -/

set_option maxRecDepth 100000 in
/-- C2 counterexample: in the example fill (a real fill — the seed pixel is
changed to the fill colour), the corner chunk (0,0) appears in the returned
modified-chunk list even though all 64 of its pixel values are bitwise
identical to its pre-fill contents. -/
theorem floodFill_unchanged_chunk_returned_cex :
    (List.lookup ((0 : Int), (0 : Int)) exResult).isSome = true
    ∧ (∀ u : Nat, u < 8 → ∀ v : Nat, v < 8 →
        ((List.lookup ((0 : Int), (0 : Int)) exResult).getD blankChunk)
          (u : Int) (v : Int) = exConst (u : Int) (v : Int))
    ∧ ((List.lookup ((1 : Int), (1 : Int)) exResult).getD blankChunk) 4 4 = exFill := by
  decide

/-- C2 amended: whenever the fill is not rejected by the bounds or
same-colour guards, the worker copies back and returns every chunk of the
transferred 3x3 array — the returned key list equals the input key list, so
chunks whose bytes did not change are returned too. -/
theorem floodFill_returns_all_chunks :
    ∀ (s W H : Int) (chunks : List ChunkEntry) (first : ChunkEntry)
      (rest : List ChunkEntry) (lX lY : Int) (fc : RGBA),
      chunks = first :: rest →
      ¬(lX < 0 ∨ W ≤ lX ∨ lY < 0 ∨ H ≤ lY) →
      stitch s chunks first.1.1 first.1.2 lX lY ≠ fc →
      (handleFloodFill s W H chunks lX lY fc).map Prod.fst = chunks.map Prod.fst := by
  intro s W H chunks first rest lX lY fc hchunks hbounds hseed
  subst hchunks
  rw [handleFloodFill]
  have hb : (decide (lX < 0) || decide (W ≤ lX) || decide (lY < 0) ||
      decide (H ≤ lY)) = false := by
    push_neg at hbounds
    simp only [Bool.or_eq_false_iff, decide_eq_false_iff_not]
    exact ⟨⟨⟨by omega, by omega⟩, by omega⟩, by omega⟩
  rw [hb]
  simp only [Bool.false_eq_true, if_false]
  rw [if_neg hseed, List.map_map]
  rfl

/-- C2 witness for the amended statement. -/
theorem floodFill_returns_all_chunks_witness :
    (([(((0 : Int), (0 : Int)), blankChunk)] : List ChunkEntry)
      = (((0 : Int), (0 : Int)), blankChunk) :: [])
    ∧ ¬((0 : Int) < 0 ∨ (1 : Int) ≤ 0 ∨ (0 : Int) < 0 ∨ (1 : Int) ≤ 0)
    ∧ stitch 1 [(((0 : Int), (0 : Int)), blankChunk)] 0 0 0 0 ≠ ⟨255, 0, 0, 255⟩
    ∧ (handleFloodFill 1 1 1 [(((0 : Int), (0 : Int)), blankChunk)] 0 0
        ⟨255, 0, 0, 255⟩).map Prod.fst
      = ([(((0 : Int), (0 : Int)), blankChunk)] : List ChunkEntry).map Prod.fst :=
  ⟨rfl, by decide, by decide,
    floodFill_returns_all_chunks 1 1 1 [(((0 : Int), (0 : Int)), blankChunk)]
      (((0 : Int), (0 : Int)), blankChunk) [] 0 0 ⟨255, 0, 0, 255⟩ rfl (by decide)
      (by decide)⟩

end SimpleVtt
